import Mathlib

/-!
Shallow embedding of the EVM execution core in `src/lib.rs` (`pub fn evm`).

256-bit machine words (`primitive_types::U256`) are modelled as `Nat` with
explicit reduction modulo `2 ^ 256` exactly where the Rust operation wraps.
The operand stack `Vec<U256>` is a `List Nat` whose head is index 0 (the
source addresses the top of the stack as index 0: it pushes with
`stack.insert(0, w)` and pops with `stack.remove(0)` / `stack.remove(1)` /
`stack.remove(2)`).  `Vec::remove` panics when the index is out of bounds,
which aborts the process; fallible steps therefore return `Option`, with
`none` standing for that panic.
-/

/-- `2 ^ 256`, the modulus of the 256-bit word type `U256`. -/
def WORD : Nat := 2 ^ 256

/-- Bitwise complement `!x` of a `U256`: `2^256 - 1 - x` on the unsigned value. -/
def notW (x : Nat) : Nat := (WORD - 1) - x % WORD

/-- Two's-complement negation `(!x).overflowing_add(1).0` used throughout the source. -/
def negW (x : Nat) : Nat := (notW x + 1) % WORD

/-- Wrapping subtraction `x.overflowing_sub(y).0`: `x - y` modulo `2^256`. -/
def subW (x y : Nat) : Nat := (x + (WORD - y % WORD)) % WORD

/-- The sign test `(x >> 255) == U256::from(1)` (bit 255, the two's-complement sign bit). -/
def isNeg (x : Nat) : Bool := x >>> 255 == 1

/--
The immediate-reading loop of the PUSH handler:
`for i in 0..byte_amount { if pc + i < code.len() { value <<= 8; value = value | code[pc + i]; } }`.
`steps` counts the remaining iterations, `i` is the loop index, `value` the accumulator;
the shift `value <<= 8` wraps modulo `2^256` as `U256` shifts do.
Bytes at positions past the end of the code are skipped entirely (the loop body
does not run for them, so the accumulator is neither shifted nor or-ed).
-/
def pushLoop (code : List Nat) (pc : Nat) : Nat → Nat → Nat → Nat
  | 0, _, value => value
  | steps + 1, i, value =>
    pushLoop code pc steps (i + 1)
      (if pc + i < code.length then ((value <<< 8) % WORD) ||| code.getD (pc + i) 0 else value)

/-- The word assembled by a PUSH-`k` instruction whose immediate starts at `pc`. -/
def pushValue (code : List Nat) (pc : Nat) (k : Nat) : Nat := pushLoop code pc k 0 0

/--
Sign extension (opcode 0x0B).  The source converts the value to its 32
big-endian bytes, reads the sign bit `bytes[31 - byte_pos] & 0x80` — i.e. bit
`8 * bp + 7` of the unsigned value — and overwrites the `31 - bp` higher-order
bytes (`iter_mut().take(31 - byte_pos)`) with `0xFF` or `0x00`.  Keeping the
low `bp + 1` bytes is taking `x mod 2^(8*(bp+1))`; filling the high bytes with
`0xFF` adds `2^256 - 2^(8*(bp+1))`.  When `byte_pos >= 32` the value is pushed
back unchanged.
-/
def signextend (bp x : Nat) : Nat :=
  if 32 ≤ bp then x
  else
    if (x >>> (8 * bp + 7)) % 2 = 1 then
      x % 2 ^ (8 * (bp + 1)) + (WORD - 2 ^ (8 * (bp + 1)))
    else
      x % 2 ^ (8 * (bp + 1))

/--
The stack effect of every handler that only touches the stack (every opcode of
the source other than STOP and PUSH0..PUSH32).  The source is a chain of `if`s
on mutually exclusive opcode values, reproduced here branch by branch in source
order; an opcode matching no branch leaves the stack unchanged (a no-op).
`none` models the out-of-bounds `Vec::remove` panic of each handler when the
stack holds fewer words than the handler removes.
-/
def execALU (op : Nat) (stack : List Nat) : Option (List Nat) :=
  if op = 0x50 then -- POP: stack.remove(0)
    match stack with
    | _ :: rest => some rest
    | [] => none
  else if op = 0x01 then -- ADD: a = remove(1), b = remove(0), a.overflowing_add(b).0
    match stack with
    | b :: a :: rest => some (((a + b) % WORD) :: rest)
    | _ => none
  else if op = 0x02 then -- MUL: a.overflowing_mul(b).0
    match stack with
    | b :: a :: rest => some (((a * b) % WORD) :: rest)
    | _ => none
  else if op = 0x03 then -- SUB: b.overflowing_sub(a).0
    match stack with
    | b :: a :: rest => some (subW b a :: rest)
    | _ => none
  else if op = 0x04 then -- DIV: a = denominator, b = numerator
    match stack with
    | b :: a :: rest => some ((if a = 0 then 0 else b / a) :: rest)
    | _ => none
  else if op = 0x06 then -- MOD: a = denominator, b = numerator
    match stack with
    | b :: a :: rest => some ((if a = 0 then 0 else b % a) :: rest)
    | _ => none
  else if op = 0x08 then -- ADDMOD: n = remove(2), a = remove(1), b = remove(0)
    match stack with
    | b :: a :: n :: rest =>
      some ((if n = 0 then 0 else ((a + b) % WORD) % n) :: rest)
    | _ => none
  else if op = 0x09 then
    -- MULMOD: full-precision product via BigUint, then back to U256; the
    -- conversion copies the big-endian bytes only when they fit in 32 bytes
    -- (`if result_bytes.len() <= 32`), leaving a zero word otherwise.
    match stack with
    | b :: a :: n :: rest =>
      some ((if n = 0 then 0
             else (if (a * b) % n < WORD then (a * b) % n else 0)) :: rest)
    | _ => none
  else if op = 0x0A then -- EXP: b.overflowing_pow(a).0
    match stack with
    | b :: a :: rest => some (((b ^ a) % WORD) :: rest)
    | _ => none
  else if op = 0x0B then -- SIGNEXTEND
    match stack with
    | bp :: v :: rest => some (signextend bp v :: rest)
    | _ => none
  else if op = 0x05 then -- SDIV
    match stack with
    | numerator :: denominator :: rest =>
      if denominator = 0 then some ((0 : Nat) :: rest)
      else
        let minValue : Nat := 2 ^ 255
        let absNum := if isNeg numerator then negW numerator else numerator
        let absDen := if isNeg denominator then negW denominator else denominator
        let q := absNum / absDen
        let q :=
          if numerator = minValue ∧ denominator = WORD - 1 then minValue
          else if isNeg numerator ≠ isNeg denominator then negW q
          else q
        some (q :: rest)
    | _ => none
  else if op = 0x07 then -- SMOD
    match stack with
    | numerator :: denominator :: rest =>
      if denominator = 0 then some ((0 : Nat) :: rest)
      else
        let absNum := if isNeg numerator then negW numerator else numerator
        let absDen := if isNeg denominator then negW denominator else denominator
        let r := absNum % absDen
        let r := if isNeg numerator ∧ r ≠ 0 then negW r else r
        some (r :: rest)
    | _ => none
  else if op = 0x10 then -- LT: right = remove(1), left = remove(0)
    match stack with
    | l :: r :: rest => some ((if l < r then (1 : Nat) else 0) :: rest)
    | _ => none
  else if op = 0x11 then -- GT
    match stack with
    | l :: r :: rest => some ((if r < l then (1 : Nat) else 0) :: rest)
    | _ => none
  else if op = 0x12 then -- SLT
    match stack with
    | l :: r :: rest =>
      if isNeg l = isNeg r then
        let absL := if isNeg l then negW l else l
        let absR := if isNeg r then negW r else r
        let res : Bool := if isNeg l then decide (absR < absL) else decide (absL < absR)
        some ((if res then (1 : Nat) else 0) :: rest)
      else
        some ((if isNeg l then (1 : Nat) else 0) :: rest)
    | _ => none
  else if op = 0x13 then -- SGT
    match stack with
    | l :: r :: rest =>
      if isNeg l = isNeg r then
        let absL := if isNeg l then negW l else l
        let absR := if isNeg r then negW r else r
        let res : Bool := if isNeg l then decide (absL < absR) else decide (absR < absL)
        some ((if res then (1 : Nat) else 0) :: rest)
      else
        some ((if isNeg l then (0 : Nat) else 1) :: rest)
    | _ => none
  else if op = 0x14 then -- EQ
    match stack with
    | l :: r :: rest => some ((if r = l then (1 : Nat) else 0) :: rest)
    | _ => none
  else if op = 0x15 then -- ISZERO
    match stack with
    | a :: rest => some ((if a = 0 then (1 : Nat) else 0) :: rest)
    | [] => none
  else if op = 0x19 then -- NOT
    match stack with
    | a :: rest => some (notW a :: rest)
    | [] => none
  else if op = 0x16 then -- AND
    match stack with
    | b :: a :: rest => some ((b &&& a) :: rest)
    | _ => none
  else if op = 0x17 then -- OR
    match stack with
    | b :: a :: rest => some ((b ||| a) :: rest)
    | _ => none
  else if op = 0x18 then -- XOR
    match stack with
    | b :: a :: rest => some ((b ^^^ a) :: rest)
    | _ => none
  else if op = 0x1B then -- SHL: value = remove(1), shift = remove(0)
    match stack with
    | shift :: value :: rest =>
      some ((if 255 < shift then 0 else (value <<< shift) % WORD) :: rest)
    | _ => none
  else if op = 0x1C then -- SHR
    match stack with
    | shift :: value :: rest =>
      some ((if 255 < shift then 0 else value >>> shift) :: rest)
    | _ => none
  else if op = 0x1D then -- SAR
    match stack with
    | shift :: value :: rest =>
      if 255 < shift then
        some ((if isNeg value then WORD - 1 else 0) :: rest)
      else
        let r := value >>> shift
        let r := if isNeg value then r ||| ((notW 0 <<< (256 - shift)) % WORD) else r
        some (r :: rest)
    | _ => none
  else
    some stack

/--
One loop iteration after the opcode fetch (`pc` here is the Rust `pc` after
`pc += 1`).  Returns `(stop_flag, pc_increment, new_stack)`: STOP raises the
stop flag; a PUSH-`k` builds its immediate from `pushValue` and advances `pc`
by a further `k`; every other opcode is delegated to `execALU` and advances
`pc` by nothing beyond the opcode byte.  `none` is a handler panic.
-/
def exec (op : Nat) (code : List Nat) (pc : Nat) (stack : List Nat) :
    Option (Bool × Nat × List Nat) :=
  if op = 0x00 then some (true, 0, stack)
  else if 0x5F ≤ op ∧ op ≤ 0x7F then
    if 0 < op - 0x5F then -- byte_amount = opcode - 0x5F
      some (false, op - 0x5F, pushValue code pc (op - 0x5F) :: stack)
    else some (false, 0, (0 : Nat) :: stack)
  else
    match execALU op stack with
    | some s => some (false, 0, s)
    | none => none

/-- Outcome of the interpreter loop: normal exit, a handler panic, or fuel
exhaustion (`timeout` is unreachable from `evm`, see `runT_no_timeout`). -/
inductive RunRes : Type where
  | panic : RunRes
  | timeout : RunRes
  | halt : List Nat → RunRes
deriving DecidableEq

/--
The `while pc < code.len() && !stop_flag` loop.  The second component of the
result records the program counter at every evaluation of the loop condition
(including the final evaluation that exits the loop); the first component is
the final stack, or `panic` when a handler panics.  `fuel` bounds the number
of iterations; since `pc` strictly increases, `code.length + 1` units never
run out (`runT_no_timeout`).
-/
def runT (code : List Nat) : Nat → Nat → List Nat → RunRes × List Nat
  | 0, pc, _ => (RunRes.timeout, [pc])
  | fuel + 1, pc, stack =>
    if pc < code.length then
      match exec (code.getD pc 0) code (pc + 1) stack with
      | none => (RunRes.panic, [pc])
      | some (stop, delta, stack2) =>
        if stop then (RunRes.halt stack2, [pc, pc + 1 + delta])
        else
          let r := runT code fuel (pc + 1 + delta) stack2
          (r.1, pc :: r.2)
    else (RunRes.halt stack, [pc])

/-- The `EvmResult { stack, success }` returned by `evm`. -/
structure EvmResult : Type where
  stack : List Nat
  success : Bool
deriving DecidableEq

/--
`pub fn evm(_code) -> EvmResult`: run the loop from `pc = 0` on an empty
stack; on normal exit the result is built with `success: true` (the only
construction of `EvmResult` in the source).  `none` models the process abort
of a handler panic: no `EvmResult` is ever produced on that path.
-/
def evm (code : List Nat) : Option EvmResult :=
  match (runT code (code.length + 1) 0 []).1 with
  | RunRes.halt s => some ⟨s, true⟩
  | _ => none

/-- The sequence of program-counter values observed at the loop condition
during the run of `evm`. -/
def evmPcs (code : List Nat) : List Nat := (runT code (code.length + 1) 0 []).2

/-- Byte encoding of one PUSH instruction: opcode `0x5F + k` followed by the
immediate bytes. -/
def encodePush (p : Nat × List Nat) : List Nat := (0x5F + p.1) :: p.2

/-- Byte encoding of a sequence of PUSH instructions. -/
def encodePushes (ps : List (Nat × List Nat)) : List Nat := (ps.map encodePush).flatten

/-- The word a PUSH instruction with (fully present) immediate bytes `p.2`
assembles: big-endian fold, one shift-and-or per byte. -/
def pushWord (p : Nat × List Nat) : Nat :=
  p.2.foldl (fun v b => ((v <<< 8) % WORD) ||| b) 0

/-- The stack left by a sequence of PUSH instructions: each push inserts at
the front, so the words appear in reverse push order. -/
def pushedStack (ps : List (Nat × List Nat)) : List Nat := (ps.map pushWord).reverse

/-! ### Small-step equations for the interpreter loop -/

/-- Loop exit: the condition `pc < code.len()` fails. -/
theorem runT_exit {code : List Nat} {fuel pc : Nat} {stack : List Nat}
    (h : ¬ pc < code.length) :
    runT code (fuel + 1) pc stack = (RunRes.halt stack, [pc]) := by
  simp only [runT, if_neg h]

/-- Loop iteration whose handler panics. -/
theorem runT_panic {code : List Nat} {fuel pc : Nat} {stack : List Nat}
    (h : pc < code.length)
    (he : exec (code.getD pc 0) code (pc + 1) stack = none) :
    runT code (fuel + 1) pc stack = (RunRes.panic, [pc]) := by
  simp only [runT, if_pos h, he]

/-- Loop iteration that raises the stop flag: the next condition check exits. -/
theorem runT_stop {code : List Nat} {fuel pc delta : Nat} {stack stack2 : List Nat}
    (h : pc < code.length)
    (he : exec (code.getD pc 0) code (pc + 1) stack = some (true, delta, stack2)) :
    runT code (fuel + 1) pc stack = (RunRes.halt stack2, [pc, pc + 1 + delta]) := by
  simp only [runT, if_pos h, he]
  simp

/-- Loop iteration that continues at `pc + 1 + delta`. -/
theorem runT_next {code : List Nat} {fuel pc delta : Nat} {stack stack2 : List Nat}
    (h : pc < code.length)
    (he : exec (code.getD pc 0) code (pc + 1) stack = some (false, delta, stack2)) :
    runT code (fuel + 1) pc stack =
      ((runT code fuel (pc + 1 + delta) stack2).1,
        pc :: (runT code fuel (pc + 1 + delta) stack2).2) := by
  simp only [runT, if_pos h, he]
  simp

/-- Every step of `exec` advances `pc` by at most 32 bytes beyond the opcode
(the widest immediate is PUSH32's). -/
theorem exec_delta_le {op : Nat} {code : List Nat} {pc : Nat} {stack : List Nat}
    {st : Bool} {d : Nat} {s2 : List Nat}
    (h : exec op code pc stack = some (st, d, s2)) : d ≤ 32 := by
  unfold exec at h
  split at h
  · simp only [Option.some.injEq, Prod.mk.injEq] at h
    omega
  · split at h
    · rename_i hrange
      split at h
      · simp only [Option.some.injEq, Prod.mk.injEq] at h
        omega
      · simp only [Option.some.injEq, Prod.mk.injEq] at h
        omega
    · cases he : execALU op stack with
      | none => rw [he] at h; exact absurd h (by simp)
      | some s =>
        rw [he] at h
        simp only [Option.some.injEq, Prod.mk.injEq] at h
        omega

/-- The recorded trace always begins with the entry `pc`. -/
theorem runT_trace_head (code : List Nat) (fuel pc : Nat) (stack : List Nat) :
    ((runT code fuel pc stack).2).head? = some pc := by
  cases fuel with
  | zero => rfl
  | succ f =>
    by_cases h : pc < code.length
    · cases he : exec (code.getD pc 0) code (pc + 1) stack with
      | none => rw [runT_panic h he]; rfl
      | some t =>
        obtain ⟨stop, d, s2⟩ := t
        cases stop with
        | true => rw [runT_stop h he]; rfl
        | false => rw [runT_next h he]; rfl
    · rw [runT_exit h]; rfl



/-- With more fuel than remaining code bytes the loop never times out
(`pc` strictly increases at every iteration). -/
theorem runT_no_timeout (code : List Nat) :
    ∀ (fuel pc : Nat) (stack : List Nat), code.length - pc < fuel →
      (runT code fuel pc stack).1 ≠ RunRes.timeout := by
  intro fuel
  induction fuel with
  | zero => intro pc stack h; omega
  | succ f ih =>
    intro pc stack h
    by_cases hpc : pc < code.length
    · cases he : exec (code.getD pc 0) code (pc + 1) stack with
      | none => rw [runT_panic hpc he]; simp
      | some t =>
        obtain ⟨stop, d, s2⟩ := t
        cases stop with
        | true => rw [runT_stop hpc he]; simp
        | false =>
          rw [runT_next hpc he]
          exact ih (pc + 1 + d) s2 (by omega)
    · rw [runT_exit hpc]; simp

/-! ### The PUSH immediate loop as a fold over the available bytes -/

/-- Shifting the loop index into the base program counter. -/
theorem pushLoop_shift (code : List Nat) (pc : Nat) :
    ∀ (steps i v : Nat), pushLoop code pc steps (i + 1) v = pushLoop code (pc + 1) steps i v := by
  intro steps
  induction steps with
  | zero => intro i v; rfl
  | succ n ih =>
    intro i v
    simp only [pushLoop]
    rw [show pc + (i + 1) = pc + 1 + i by omega]
    exact ih (i + 1) _

/-- The PUSH immediate loop folds over the bytes that actually exist in the
window `[pc, pc + steps)`; positions past the end of the code contribute
nothing (they are skipped, not read as zero). -/
theorem pushLoop_eq_foldl (code : List Nat) :
    ∀ (steps pc v : Nat),
      pushLoop code pc steps 0 v =
        ((code.drop pc).take steps).foldl (fun v b => ((v <<< 8) % WORD) ||| b) v := by
  intro steps
  induction steps with
  | zero => intro pc v; simp [pushLoop]
  | succ n ih =>
    intro pc v
    rw [show pushLoop code pc (n + 1) 0 v
          = pushLoop code pc n (0 + 1)
              (if pc + 0 < code.length
               then ((v <<< 8) % WORD) ||| code.getD (pc + 0) 0 else v) from rfl]
    rw [pushLoop_shift]
    rw [ih]
    simp only [Nat.add_zero]
    by_cases h : pc < code.length
    · rw [if_pos h, List.drop_eq_getElem_cons h, List.take_succ_cons, List.foldl_cons,
        List.getD_eq_getElem code 0 h]
    · rw [if_neg h,
        List.drop_eq_nil_of_le (Nat.le_of_not_lt h),
        List.drop_eq_nil_of_le (by omega : code.length ≤ pc + 1)]
      simp

/-- `pushValue` in closed form. -/
theorem pushValue_eq_foldl (code : List Nat) (pc k : Nat) :
    pushValue code pc k =
      ((code.drop pc).take k).foldl (fun v b => ((v <<< 8) % WORD) ||| b) 0 :=
  pushLoop_eq_foldl code k pc 0

/-! ### List bookkeeping helpers -/

/-- Reading the byte just after a prefix. -/
theorem getD_append_length (pre : List Nat) (x : Nat) (r : List Nat) :
    (pre ++ x :: r).getD pre.length 0 = x := by
  induction pre with
  | nil => rfl
  | cons a t ih => simpa using ih

/-- A sequence of PUSH instructions encodes to at least one byte each. -/
theorem length_le_encodePushes (ps : List (Nat × List Nat)) :
    ps.length ≤ (encodePushes ps).length := by
  induction ps with
  | nil => simp [encodePushes]
  | cons p t ih =>
    simp only [encodePushes, encodePush, List.map_cons, List.flatten_cons, List.length_append,
      List.length_cons] at *
    omega

/-- Along any run, the observed program counters strictly increase and never
exceed `code.length + 32`: an iteration starts only at `pc < code.length` and
advances by `1 + delta` with `delta ≤ 32`. -/
theorem runT_trace_mono (code : List Nat) :
    ∀ (fuel pc : Nat) (stack : List Nat), pc ≤ code.length + 32 →
      List.Chain' (· < ·) (runT code fuel pc stack).2 ∧
        ∀ q ∈ (runT code fuel pc stack).2, q ≤ code.length + 32 := by
  intro fuel
  induction fuel with
  | zero =>
    intro pc stack hpc
    exact ⟨List.chain'_singleton pc, by simpa [runT] using hpc⟩
  | succ f ih =>
    intro pc stack hpc
    by_cases h : pc < code.length
    · cases he : exec (code.getD pc 0) code (pc + 1) stack with
      | none =>
        rw [runT_panic h he]
        exact ⟨List.chain'_singleton pc, by simpa using hpc⟩
      | some t =>
        obtain ⟨stop, d, s2⟩ := t
        have hd : d ≤ 32 := exec_delta_le he
        cases stop with
        | true =>
          rw [runT_stop h he]
          refine ⟨?_, ?_⟩
          · exact List.chain'_pair.mpr (by omega)
          · intro q hq
            simp only [List.mem_cons, List.not_mem_nil, or_false] at hq
            rcases hq with rfl | rfl <;> omega
        | false =>
          rw [runT_next h he]
          have hpc2 : pc + 1 + d ≤ code.length + 32 := by omega
          obtain ⟨ihc, ihb⟩ := ih (pc + 1 + d) s2 hpc2
          refine ⟨?_, ?_⟩
          · rw [List.chain'_cons']
            refine ⟨?_, ihc⟩
            intro y hy
            rw [runT_trace_head] at hy
            simp only [Option.mem_def, Option.some.injEq] at hy
            omega
          · intro q hq
            rcases List.mem_cons.mp hq with rfl | hq
            · exact hpc
            · exact ihb q hq
    · rw [runT_exit h]
      exact ⟨List.chain'_singleton pc, by simpa using hpc⟩

/-- Extracting bit `8*bp + 7` commutes with truncation to the low `8*(bp+1)`
bits: the sign bit examined by SIGNEXTEND lies inside the bytes it keeps. -/
theorem bitp_mod (x bp : Nat) :
    ((x % 2 ^ (8 * (bp + 1))) >>> (8 * bp + 7)) % 2 = (x >>> (8 * bp + 7)) % 2 := by
  rw [Nat.shiftRight_eq_div_pow, Nat.shiftRight_eq_div_pow,
    show 8 * (bp + 1) = (8 * bp + 7) + 1 by omega, pow_succ,
    Nat.mod_mul_right_div_self, Nat.mod_mod_of_dvd _ (dvd_refl 2)]

/-- Adding an even multiple of `2^p` does not change bit `p`. -/
theorem bitp_add_multiple (a t p : Nat) :
    ((a + 2 ^ p * (2 * t)) >>> p) % 2 = (a >>> p) % 2 := by
  rw [Nat.shiftRight_eq_div_pow, Nat.shiftRight_eq_div_pow,
    Nat.add_mul_div_left _ _ (pow_pos (by norm_num) p), Nat.add_mul_mod_self_left]

/-! ### Claims -/

/-- C1 — The claim says ADDMOD computes the exact integer sum `A + B` at
double-width precision before reducing modulo `N`.  The code instead wraps the
sum to 256 bits (`a.overflowing_add(b).0`) before `% n`: on
`A = B = 2^256 - 1`, `N = 12` the machine pushes `2` (the reduction of the
wrapped sum `2^256 - 2`), whereas the exact sum `2^257 - 2` reduces to `6`. -/
theorem addmod_truncates_before_mod :
    evm ([0x60, 0x0C] ++ (0x7F :: List.replicate 32 0xFF) ++
          (0x7F :: List.replicate 32 0xFF) ++ [0x08]) = some ⟨[2], true⟩ ∧
      ((WORD - 1) + (WORD - 1)) % 12 = 6 :=
  ⟨rfl, rfl⟩

/-- C2 (counterexample) — `PUSH2` with a single remaining immediate byte
`0xAB` pushes `0xAB`, not the low-end zero extension `0xAB00` the claim
requires. -/
theorem push_truncation_counterexample :
    evm [0x61, 0xAB] = some ⟨[0xAB], true⟩ ∧ (0xAB : Nat) ≠ 0xAB00 :=
  ⟨rfl, by decide⟩

/-- C2 (amended) — a PUSH-`k` whose immediate is truncated by end-of-code
pushes the big-endian value of only the bytes that are present: missing
trailing bytes are omitted entirely (the accumulator is never shifted for
them), not read as zero. -/
theorem truncated_push_is_be_of_present_bytes :
    ∀ (k : Nat) (imm : List Nat), 1 ≤ k → k ≤ 32 → imm.length < k →
      evm ((0x5F + k) :: imm) =
        some ⟨[imm.foldl (fun v b => ((v <<< 8) % WORD) ||| b) 0], true⟩ := by
  intro k imm h1 h2 h3
  have hexec : exec (((0x5F + k) :: imm).getD 0 0) ((0x5F + k) :: imm) (0 + 1) [] =
      some (false, k, [pushValue ((0x5F + k) :: imm) (0 + 1) k]) := by
    rw [show ((0x5F + k) :: imm).getD 0 0 = 0x5F + k from rfl]
    unfold exec
    rw [if_neg (by omega), if_pos (⟨by omega, by omega⟩ : 0x5F ≤ 0x5F + k ∧ 0x5F + k ≤ 0x7F),
      show 0x5F + k - 0x5F = k by omega, if_pos (by omega : 0 < k)]
  have hval : pushValue ((0x5F + k) :: imm) (0 + 1) k =
      imm.foldl (fun v b => ((v <<< 8) % WORD) ||| b) 0 := by
    rw [pushValue_eq_foldl]
    simp only [Nat.zero_add, List.drop_succ_cons, List.drop_zero]
    rw [List.take_of_length_le (by omega)]
  unfold evm
  rw [show ((0x5F + k) :: imm).length = imm.length + 1 from by simp]
  rw [runT_next (by simp) hexec]
  rw [show imm.length + 1 = imm.length + 1 from rfl]
  rw [runT_exit (by simp; omega)]
  simp [hval]

/-- C3 (counterexample) — executing ADD on an empty stack does not produce an
execution result at all: the handler's `stack.remove(1)` panics, aborting the
host process (modelled by `none`), instead of reporting failure through the
result's success flag. -/
theorem add_underflow_aborts : evm [0x01] = none := rfl

/-- C3 (amended) — reaching ADD with fewer than two stack words makes the
handler panic (out-of-bounds `Vec::remove`), modelled as `exec` returning
`none`: the run is halted by a process abort, and no `EvmResult` — in
particular no `success = false` — is ever returned on that path. -/
theorem add_underflow_panics :
    ∀ (code : List Nat) (pc : Nat) (stack : List Nat),
      stack.length < 2 → exec 0x01 code pc stack = none := by
  intro code pc stack h
  match stack with
  | [] => rfl
  | [x] => rfl
  | x :: y :: t => simp only [List.length_cons] at h; omega

/-- C3 witness — the amended theorem applied to the empty stack. -/
theorem add_underflow_panics_witness :
    ([] : List Nat).length < 2 ∧ exec 0x01 [] 0 [] = none :=
  ⟨by decide, add_underflow_panics [] 0 [] (by decide)⟩

/-- C5 — MULMOD pushes `((A mod N) * (B mod N)) mod N` computed at full
precision (the source routes through `BigUint`), for all 256-bit words
including products exceeding 256 bits; a zero modulus yields 0. -/
theorem mulmod_wide_precision :
    ∀ (code : List Nat) (pc A B N : Nat) (rest : List Nat),
      A < WORD → B < WORD → N < WORD →
      exec 0x09 code pc (A :: B :: N :: rest) =
        some (false, 0, (if N = 0 then 0 else (A % N * (B % N)) % N) :: rest) := by
  intro code pc A B N rest hA hB hN
  have hred : exec 0x09 code pc (A :: B :: N :: rest) =
      some (false, 0,
        (if N = 0 then 0 else (if (B * A) % N < WORD then (B * A) % N else 0)) :: rest) := rfl
  rw [hred]
  by_cases hN0 : N = 0
  · simp [hN0]
  · rw [if_neg hN0, if_neg hN0,
      if_pos (lt_of_lt_of_le (Nat.mod_lt _ (Nat.pos_of_ne_zero hN0)) (le_of_lt hN)),
      Nat.mul_mod, Nat.mul_comm (B % N) (A % N)]

/-- C5 witness — `A = B = 2^256 - 1`, `N = 12`: the product far exceeds 256
bits and the exact result `(3 * 3) mod 12 = 9` is pushed. -/
theorem mulmod_wide_precision_witness :
    (WORD - 1 < WORD ∧
      exec 0x09 [] 0 [WORD - 1, WORD - 1, 12] =
        some (false, 0,
          [if (12 : Nat) = 0 then 0 else ((WORD - 1) % 12 * ((WORD - 1) % 12)) % 12])) :=
  ⟨by decide,
    mulmod_wide_precision [] 0 (WORD - 1) (WORD - 1) 12 [] (by decide) (by decide) (by decide)⟩

/-- C6 — DIV, MOD, SDIV and SMOD with a zero divisor (the secondary operand,
removed from stack position 1) push the word 0 and do not fault, for every
dividend. -/
theorem div_by_zero_pushes_zero :
    ∀ (code : List Nat) (pc b : Nat) (rest : List Nat),
      exec 0x04 code pc (b :: 0 :: rest) = some (false, 0, 0 :: rest) ∧
      exec 0x06 code pc (b :: 0 :: rest) = some (false, 0, 0 :: rest) ∧
      exec 0x05 code pc (b :: 0 :: rest) = some (false, 0, 0 :: rest) ∧
      exec 0x07 code pc (b :: 0 :: rest) = some (false, 0, 0 :: rest) := by
  intro code pc b rest
  exact ⟨rfl, rfl, rfl, rfl⟩

/-- C7 — `PUSH1 0x05 PUSH1 0x03 SUB` leaves the single word
`2^256 - 2` (the two's-complement encoding of −2): SUB subtracts the
second-popped word (5) from the first-popped word (3), wrapping modulo
`2^256`. -/
theorem sub_example_top_minus_second :
    evm [0x60, 0x05, 0x60, 0x03, 0x03] = some ⟨[WORD - 2], true⟩ := rfl

/-- C8 — SIGNEXTEND is idempotent: extending twice at the same byte position
equals extending once, and positions `b ≥ 32` leave the value unchanged. -/
theorem signextend_idempotent :
    ∀ (bp x : Nat), signextend bp (signextend bp x) = signextend bp x ∧
      (32 ≤ bp → signextend bp x = x) := by
  intro bp x
  refine ⟨?_, fun h => by simp [signextend, h]⟩
  by_cases h32 : 32 ≤ bp
  · simp [signextend, h32]
  · have hple : (8 * bp + 7) + 1 ≤ 256 := by omega
    have hM : (2 : Nat) ^ (8 * (bp + 1)) = 2 ^ (8 * bp + 7) * 2 := by
      rw [show 8 * (bp + 1) = (8 * bp + 7) + 1 by omega, pow_succ]
    have hdvd : 2 ^ (8 * bp + 7) * 2 ∣ WORD - 2 ^ (8 * (bp + 1)) := by
      refine Nat.dvd_sub' ?_ ?_
      · show 2 ^ (8 * bp + 7) * 2 ∣ 2 ^ 256
        rw [← pow_succ]
        exact pow_dvd_pow 2 hple
      · rw [hM]
    obtain ⟨s, hs⟩ := hdvd
    have hmodM : (x % 2 ^ (8 * (bp + 1)) + (WORD - 2 ^ (8 * (bp + 1)))) % 2 ^ (8 * (bp + 1)) =
        x % 2 ^ (8 * (bp + 1)) := by
      rw [hs, hM, Nat.add_mul_mod_self_left, Nat.mod_mod_of_dvd _ (dvd_refl _)]
    have hbit : ((x % 2 ^ (8 * (bp + 1)) + (WORD - 2 ^ (8 * (bp + 1)))) >>> (8 * bp + 7)) % 2 =
        (x >>> (8 * bp + 7)) % 2 := by
      rw [hs, mul_assoc, bitp_add_multiple]
      exact bitp_mod x bp
    simp only [signextend, if_neg h32]
    by_cases hc : (x >>> (8 * bp + 7)) % 2 = 1
    · rw [if_pos hc, if_pos (by rw [hbit]; exact hc), hmodM]
    · rw [if_neg hc, if_neg (by rw [bitp_mod x bp]; exact hc),
        Nat.mod_mod_of_dvd _ (dvd_refl _)]

/-- C8 witness — idempotence and the unchanged case evaluated at
`b = 32`, `x = 5`. -/
theorem signextend_idempotent_witness :
    signextend 32 (signextend 32 5) = signextend 32 5 ∧ signextend 32 5 = 5 :=
  ⟨(signextend_idempotent 32 5).1, (signextend_idempotent 32 5).2 (by decide)⟩

/-- C10 — the interpreter is a pure function of the input bytecode (it reads
no global mutable state): two runs on equal inputs that both return normally
return identical stacks and identical success flags. -/
theorem evm_deterministic :
    ∀ (c1 c2 : List Nat) (r1 r2 : EvmResult),
      c1 = c2 → evm c1 = some r1 → evm c2 = some r2 →
      r1.stack = r2.stack ∧ r1.success = r2.success := by
  intro c1 c2 r1 r2 hc h1 h2
  subst hc
  rw [h1] at h2
  cases h2
  exact ⟨rfl, rfl⟩

/-- C10 witness — determinism applied to the bytecode `[STOP]`. -/
theorem evm_deterministic_witness :
    (EvmResult.mk [] true).stack = (EvmResult.mk [] true).stack ∧
      (EvmResult.mk [] true).success = (EvmResult.mk [] true).success :=
  evm_deterministic [0x00] [0x00] ⟨[], true⟩ ⟨[], true⟩ rfl rfl rfl

/-- C2 witness — the amended truncated-push theorem at `PUSH2` with one
remaining byte `0xAB`. -/
theorem truncated_push_witness :
    (1 ≤ 2 ∧ 2 ≤ 32 ∧ ([0xAB] : List Nat).length < 2) ∧
      evm ((0x5F + 2) :: [0xAB]) =
        some ⟨[[0xAB].foldl (fun v b => ((v <<< 8) % WORD) ||| b) 0], true⟩ :=
  ⟨⟨by decide, by decide, by decide⟩,
    truncated_push_is_be_of_present_bytes 2 [0xAB] (by decide) (by decide) (by decide)⟩

/-- C4 (counterexample) — running the single byte `0x61` (PUSH2 with no
immediate bytes) drives the program counter to 3, past the end of the
1-byte bytecode: the claimed invariant `pc ≤ length` fails. -/
theorem pc_exceeds_code_length :
    3 ∈ evmPcs [0x61] ∧ ([0x61] : List Nat).length < 3 := by
  decide

/-- C4 (amended) — the program counter starts at 0 and strictly increases
(hence is monotonically non-decreasing), and every observed value is at most
`code.length + 32`: a truncated PUSH may drive `pc` past the end of the code,
but only by its immediate width (at most 32); the loop exits at the first
condition check with `pc ≥ length` or after a halt. -/
theorem pc_trace_monotone_bounded :
    ∀ code : List Nat,
      (evmPcs code).head? = some 0 ∧
      List.Chain' (· < ·) (evmPcs code) ∧
      ∀ p ∈ evmPcs code, p ≤ code.length + 32 := by
  intro code
  refine ⟨runT_trace_head code (code.length + 1) 0 [], ?_, ?_⟩
  · exact (runT_trace_mono code (code.length + 1) 0 [] (by omega)).1
  · exact (runT_trace_mono code (code.length + 1) 0 [] (by omega)).2

/-- A PUSH-`k` opcode (`k ≤ 32`) never stops, advances `pc` by `k` immediate
bytes and pushes the assembled immediate (`pushValue _ _ 0 = 0` covers
PUSH0's separate branch). -/
theorem exec_push {k : Nat} (hk : k ≤ 32) (code : List Nat) (pc : Nat) (stack : List Nat) :
    exec (0x5F + k) code pc stack = some (false, k, pushValue code pc k :: stack) := by
  unfold exec
  rw [if_neg (by omega), if_pos (⟨by omega, by omega⟩ : 0x5F ≤ 0x5F + k ∧ 0x5F + k ≤ 0x7F),
    show 0x5F + k - 0x5F = k by omega]
  by_cases hk0 : 0 < k
  · rw [if_pos hk0]
  · rw [if_neg hk0]
    have hz : k = 0 := by omega
    subst hz
    rfl

/-- Running from the start of an encoded PUSH sequence followed by STOP halts
at the STOP with exactly the pushed words stacked on top of the entry stack,
regardless of what bytes follow the STOP. -/
theorem runT_pushes (rest : List Nat) :
    ∀ (ps : List (Nat × List Nat)) (pre stack : List Nat) (fuel : Nat),
      (∀ p ∈ ps, p.1 ≤ 32 ∧ p.2.length = p.1) → ps.length < fuel →
      (runT (pre ++ encodePushes ps ++ 0x00 :: rest) fuel pre.length stack).1 =
        RunRes.halt (pushedStack ps ++ stack) := by
  intro ps
  induction ps with
  | nil =>
    intro pre stack fuel hwf hfuel
    obtain ⟨f, rfl⟩ : ∃ f, fuel = f + 1 := ⟨fuel - 1, by omega⟩
    have hcode : pre ++ encodePushes [] ++ 0x00 :: rest = pre ++ 0x00 :: rest := by
      simp [encodePushes]
    rw [hcode]
    have hpc : pre.length < (pre ++ 0x00 :: rest).length := by simp
    have hexec : exec ((pre ++ 0x00 :: rest).getD pre.length 0)
        (pre ++ 0x00 :: rest) (pre.length + 1) stack = some (true, 0, stack) := by
      rw [getD_append_length]
      rfl
    rw [runT_stop hpc hexec]
    simp [pushedStack]
  | cons p tl ih =>
    obtain ⟨k, imm⟩ := p
    intro pre stack fuel hwf hfuel
    obtain ⟨f, rfl⟩ : ∃ f, fuel = f + 1 := ⟨fuel - 1, by omega⟩
    obtain ⟨hk, hlen⟩ := hwf (k, imm) (List.mem_cons_self _ _)
    have hwf2 : ∀ q ∈ tl, q.1 ≤ 32 ∧ q.2.length = q.1 :=
      fun q hq => hwf q (List.mem_cons_of_mem _ hq)
    have hcode : pre ++ encodePushes ((k, imm) :: tl) ++ 0x00 :: rest =
        pre ++ (0x5F + k) :: (imm ++ (encodePushes tl ++ 0x00 :: rest)) := by
      simp [encodePushes, encodePush]
    rw [hcode]
    set code := pre ++ (0x5F + k) :: (imm ++ (encodePushes tl ++ 0x00 :: rest)) with hcodedef
    have hpc : pre.length < code.length := by
      rw [hcodedef]; simp
    have hop : code.getD pre.length 0 = 0x5F + k := by
      rw [hcodedef]; exact getD_append_length _ _ _
    have hdrop : code.drop (pre.length + 1) = imm ++ (encodePushes tl ++ 0x00 :: rest) := by
      rw [hcodedef,
        show pre ++ (0x5F + k) :: (imm ++ (encodePushes tl ++ 0x00 :: rest)) =
          (pre ++ [0x5F + k]) ++ (imm ++ (encodePushes tl ++ 0x00 :: rest)) by simp,
        show pre.length + 1 = (pre ++ [0x5F + k]).length by simp]
      exact List.drop_left _ _
    have hval : pushValue code (pre.length + 1) k = pushWord (k, imm) := by
      rw [pushValue_eq_foldl, hdrop, List.take_left' hlen]
      rfl
    have hexec : exec (code.getD pre.length 0) code (pre.length + 1) stack =
        some (false, k, pushValue code (pre.length + 1) k :: stack) := by
      rw [hop]
      exact exec_push hk code (pre.length + 1) stack
    rw [runT_next hpc hexec, hval]
    have hlen2 : pre.length + 1 + k = (pre ++ (0x5F + k) :: imm).length := by
      simp only [List.length_append, List.length_cons, hlen]
      omega
    have hcode2 : code = (pre ++ (0x5F + k) :: imm) ++ encodePushes tl ++ 0x00 :: rest := by
      rw [hcodedef]; simp
    rw [hlen2, hcode2,
      ih (pre ++ (0x5F + k) :: imm) (pushWord (k, imm) :: stack) f hwf2
        (by simp only [List.length_cons] at hfuel; omega)]
    simp [pushedStack]

/-- C9 — a bytecode of PUSH instructions followed by STOP and arbitrary
further bytes halts at the STOP: the result stack is exactly what the pushes
left (later pushes on top), the success flag is `true`, and the bytes after
STOP are never processed (the result does not depend on `rest`). -/
theorem stop_halts_with_pushed_stack :
    ∀ (ps : List (Nat × List Nat)) (rest : List Nat),
      (∀ p ∈ ps, p.1 ≤ 32 ∧ p.2.length = p.1) →
      evm (encodePushes ps ++ 0x00 :: rest) = some ⟨pushedStack ps, true⟩ := by
  intro ps rest hwf
  unfold evm
  have hfuel : ps.length < (encodePushes ps ++ 0x00 :: rest).length + 1 := by
    have := length_le_encodePushes ps
    simp only [List.length_append, List.length_cons]
    omega
  have h := runT_pushes rest ps [] [] ((encodePushes ps ++ 0x00 :: rest).length + 1) hwf hfuel
  simp only [List.nil_append, List.length_nil, List.append_nil] at h
  rw [h]

/-- C9 witness — `PUSH1 0x05; STOP; 0xFF`: the trailing byte is ignored and
the stack is `[5]`. -/
theorem stop_halts_with_pushed_stack_witness :
    evm (encodePushes [(1, [5])] ++ 0x00 :: [0xFF]) = some ⟨pushedStack [(1, [5])], true⟩ :=
  stop_halts_with_pushed_stack [(1, [5])] [0xFF] (by decide)

/-- C4 witness — the amended trace properties applied to the bytecode
`[0x61]`, with the bound instantiated at the visited counter 0. -/
theorem pc_trace_monotone_bounded_witness :
    (evmPcs [0x61]).head? = some 0 ∧ 0 ≤ ([0x61] : List Nat).length + 32 :=
  ⟨(pc_trace_monotone_bounded [0x61]).1,
    (pc_trace_monotone_bounded [0x61]).2.2 0 (by decide)⟩
